import Mathlib

/-!
Verification development for the `fragility` repository
(`src/fragility/src/fragility_curves/fragility_models.py`).

The Python module defines a single class `FragilityModel` holding a name and a
dict `fragility_curves` mapping a component-type key (string) to a family:
a dict mapping damage-state label to a dict with fields "imt", "median",
"beta".  We embed Python dicts as association lists with Python's
insertion-order / update-in-place semantics, floats as real numbers, and
`scipy.stats.norm.cdf` as the standard normal cumulative distribution
function defined by its integral.  Fallible code (KeyError, IndexError,
UnboundLocalError, ValueError) is modelled with explicit error results.
-/

open MeasureTheory Real

/-- Python `dict` with string keys: an association list in insertion order. -/
abbrev Dict (α : Type) := List (String × α)

/-- Python `d[k]` lookup (as an `Option`): first binding for `k`. -/
def dictGet {α : Type} (d : Dict α) (k : String) : Option α :=
  match d with
  | [] => none
  | (k₁, v) :: rest => if k₁ = k then some v else dictGet rest k

/-- Python `d[k] = v`: update in place if `k` is present (keeping its
position), otherwise append at the end. -/
def dictInsert {α : Type} (d : Dict α) (k : String) (v : α) : Dict α :=
  match d with
  | [] => [(k, v)]
  | (k₁, v₁) :: rest =>
    if k₁ = k then (k, v) :: rest else (k₁, v₁) :: dictInsert rest k v

/-- The keys of a dict, in order. -/
def dictKeys {α : Type} (d : Dict α) : List String := d.map Prod.fst

/-- Line 61: `compon_type = "".join([i for i in component if not i.isdigit()])`.
Digit characters are removed, all other characters kept in order. -/
def stripDigits (component : String) : String :=
  String.mk (component.data.filter (fun c => !c.isDigit))

/-- The entry stored per damage state: the Python inner dict with fields
"imt", "median", "beta".  Each field is `none` while the corresponding
Python key has not been assigned yet (reading it then raises `KeyError`). -/
structure CurveParams where
  imt : Option String
  median : Option ℝ
  beta : Option ℝ

/-- The `FragilityModel` object: `name`, the optional attribute
`applicable_compons` (unset until `set_applicable_compons` is called),
and the dict `fragility_curves` of curve families. -/
structure FragilityModel where
  name : String
  applicable_compons : Option (List String)
  fragility_curves : Dict (Dict CurveParams)

/-- `__init__`: stores the name and an empty `fragility_curves` dict. -/
def FragilityModel.init (name : String) : FragilityModel :=
  ⟨name, none, []⟩

/-- `set_applicable_compons`: stores the list of applicable component
prefixes. -/
def set_applicable_compons (m : FragilityModel) (applicable_compons : List String) :
    FragilityModel :=
  ⟨m.name, some applicable_compons, m.fragility_curves⟩

/-- The loop of `set_fragility_curves` (lines 43-49).  For each state, in
order: `fam[state] = dict()`, `fam[state]["imt"] = imt`,
`fam[state]["median"] = list_of_median[index]`,
`fam[state]["beta"] = list_of_beta[index]`.  An out-of-range index raises
`IndexError`, stopping the loop; the Boolean records whether the loop ran to
completion.  The dict mutated so far is returned in either case. -/
def setCurvesLoop (fam : Dict CurveParams) (imt : String) (states : List String)
    (medians betas : List ℝ) (index : Nat) : Dict CurveParams × Bool :=
  match states with
  | [] => (fam, true)
  | state :: rest =>
    let fam₁ := dictInsert fam state ⟨none, none, none⟩
    let fam₂ := dictInsert fam₁ state ⟨some imt, none, none⟩
    match medians.get? index with
    | none => (fam₂, false)
    | some md =>
      let fam₃ := dictInsert fam₂ state ⟨some imt, some md, none⟩
      match betas.get? index with
      | none => (fam₃, false)
      | some bt =>
        setCurvesLoop (dictInsert fam₃ state ⟨some imt, some md, some bt⟩)
          imt rest medians betas (index + 1)

/-- `set_fragility_curves` (lines 26-49).  Line 42 first replaces the family
stored under `componPfx` (Python parameter `compon_prefix`) with a fresh
empty dict, then the loop fills it in.  The Boolean records whether the call
completed without an `IndexError`; on failure the partially built family is
left in the table, exactly as in the source. -/
def set_fragility_curves (m : FragilityModel) (componPfx imt : String)
    (list_of_states : List String) (list_of_median list_of_beta : List ℝ) :
    FragilityModel × Bool :=
  let r := setCurvesLoop [] imt list_of_states list_of_median list_of_beta 0
  (⟨m.name, m.applicable_compons, dictInsert m.fragility_curves componPfx r.1⟩, r.2)

/-- The standard normal cumulative distribution function
(`scipy.stats.norm.cdf`), defined by its integral. -/
noncomputable def normCdf (x : ℝ) : ℝ :=
  (∫ t in Set.Iic x, Real.exp (-(1 / 2) * t ^ 2)) / Real.sqrt (2 * Real.pi)

/-- `calculate_state_probability` (lines 131-134):
`val = np.log(imt / median) / beta; return norm.cdf(val)`. -/
noncomputable def calculate_state_probability (imt median beta : ℝ) : ℝ :=
  normCdf (Real.log (imt / median) / beta)

/-- Result of a call to `ascertain_damage_probabilities`: the implicit `None`
return (component key absent), a raised exception, or a returned list. -/
inductive EvalResult where
  | noResult : EvalResult
  | error : String → EvalResult
  | ok : List ℝ → EvalResult

/-- Lines 63-75: build `state_cdf`.  For each state in family order, read
`fam[state]["imt"]` (raising `KeyError` if absent); if it equals the
requested type, read median and beta (KeyError if absent) and append
`calculate_state_probability(imt_value, median, beta)`; otherwise print a
diagnostic and skip the state. -/
noncomputable def buildCdf (fam : Dict CurveParams) (imt_type : String)
    (imt_value : ℝ) : Except String (List ℝ) :=
  match fam with
  | [] => .ok []
  | (_, p) :: rest =>
    match p.imt with
    | none => .error "KeyError: imt"
    | some imt =>
      if imt = imt_type then
        match p.median with
        | none => .error "KeyError: median"
        | some median =>
          match p.beta with
          | none => .error "KeyError: beta"
          | some beta =>
            match buildCdf rest imt_type imt_value with
            | .error e => .error e
            | .ok cdf => .ok (calculate_state_probability imt_value median beta :: cdf)
      else
        buildCdf rest imt_type imt_value

/-- Lines 77-82: the exceedance-to-state-probability reduction.
`state_prob = remain_prob - cumprob`; append; `remain_prob -= state_prob`. -/
noncomputable def reduceProbs (remainProb : ℝ) (stateCdf : List ℝ) : List ℝ :=
  match stateCdf with
  | [] => []
  | cumprob :: rest =>
    let stateProb := remainProb - cumprob
    stateProb :: reduceProbs (remainProb - stateProb) rest

/-- `np.linspace(start, stop, num)` (line 85). -/
noncomputable def linspace (start stop : ℝ) (num : Nat) : List ℝ :=
  (List.range num).map (fun i => start + (stop - start) * i / (num - 1 : ℕ))

/-- Lines 89-102 of the plotting block: for each state read median and beta
(raising `KeyError` if absent) and evaluate the fragility curve at each
sample, producing the rows of `frag_df`. -/
noncomputable def plotRows (fam : Dict CurveParams) (samples : List ℝ) :
    Except String (List (ℝ × String × ℝ)) :=
  match fam with
  | [] => .ok []
  | (state, p) :: rest =>
    match p.median with
    | none => .error "KeyError: median"
    | some median =>
      match p.beta with
      | none => .error "KeyError: beta"
      | some beta =>
        match plotRows rest samples with
        | .error e => .error e
        | .ok rows =>
          .ok ((samples.map
            (fun x => (x, state, calculate_state_probability x median beta))) ++ rows)

/-- Lines 84-127, the plotting block.  The computed rows are handed to the
external visualization sink (seaborn/matplotlib) and discarded; the block can
still raise: a `KeyError` while reading curve parameters (line 90-91), or a
`ValueError` at `max(state_cdf)` (line 119) when `state_cdf` is empty. -/
noncomputable def plotStep (fam : Dict CurveParams) (stateCdf : List ℝ)
    (imt_value : ℝ) : Except String Unit :=
  match plotRows fam (linspace 0.001 (imt_value * 2) 100) with
  | .error e => .error e
  | .ok _ => if stateCdf.isEmpty then .error "ValueError: max of empty sequence" else .ok ()

/-- `ascertain_damage_probabilities` (lines 51-129).  Key steps: strip the
digits from `component` and look the key up (returning `None` when absent);
build `state_cdf`; when its length equals the number of states run the
reduction, binding `state_probabilities`; run the plotting block when
`plotting` is set; finally `return state_probabilities`, which raises
`UnboundLocalError` when the reduction was skipped. -/
noncomputable def ascertain_damage_probabilities (m : FragilityModel)
    (component imt_type : String) (imt_value : ℝ) (plotting : Bool) : EvalResult :=
  let componType := stripDigits component
  match dictGet m.fragility_curves componType with
  | none => .noResult
  | some fam =>
    match buildCdf fam imt_type imt_value with
    | .error e => .error e
    | .ok stateCdf =>
      let stateProbs? : Option (List ℝ) :=
        if stateCdf.length = fam.length then some (reduceProbs 1 stateCdf) else none
      let afterPlot : Except String Unit :=
        if plotting then plotStep fam stateCdf imt_value else .ok ()
      match afterPlot with
      | .error e => .error e
      | .ok _ =>
        match stateProbs? with
        | some sp => .ok sp
        | none => .error "UnboundLocalError: state_probabilities"

/-- The evaluation call with explicit state passing: the method reads `self`
but never assigns to it, so the embedded state is returned unchanged. -/
noncomputable def ascertainS (m : FragilityModel) (component imt_type : String)
    (imt_value : ℝ) (plotting : Bool) : EvalResult × FragilityModel :=
  (ascertain_damage_probabilities m component imt_type imt_value plotting, m)

/-- The exceedance values of a family, in family order, at a given intensity
(meaningful when every entry carries a median and a beta). -/
noncomputable def esOf (fam : Dict CurveParams) (imt_value : ℝ) : List ℝ :=
  fam.map (fun p => calculate_state_probability imt_value
    (p.2.median.getD 0) (p.2.beta.getD 0))

/-- Every state of the family carries the requested intensity-measure type
and full curve parameters. -/
def allMatched (fam : Dict CurveParams) (imt_type : String) : Prop :=
  ∀ p ∈ fam, p.2.imt = some imt_type ∧ p.2.median.isSome ∧ p.2.beta.isSome

/-! ### Properties of the standard normal CDF -/

lemma gaussFun_integrable : Integrable (fun t : ℝ => Real.exp (-(1 / 2) * t ^ 2)) :=
  integrable_exp_neg_mul_sq (by norm_num)

lemma gaussFun_total :
    (∫ t : ℝ, Real.exp (-(1 / 2) * t ^ 2)) = Real.sqrt (2 * Real.pi) := by
  rw [integral_gaussian]
  congr 1
  ring

lemma sqrt_two_pi_pos : 0 < Real.sqrt (2 * Real.pi) :=
  Real.sqrt_pos.2 (by positivity)

lemma normCdf_nonneg (x : ℝ) : 0 ≤ normCdf x :=
  div_nonneg
    (setIntegral_nonneg measurableSet_Iic fun x _ => (Real.exp_pos
      (-(1 / 2) * x ^ 2)).le)
    (Real.sqrt_nonneg _)

lemma normCdf_le_one (x : ℝ) : normCdf x ≤ 1 := by
  rw [normCdf, div_le_one sqrt_two_pi_pos, ← gaussFun_total]
  exact setIntegral_le_integral gaussFun_integrable
    (Filter.Eventually.of_forall fun t => (Real.exp_pos _).le)

lemma normCdf_mono : Monotone normCdf := by
  intro a b hab
  rw [normCdf, normCdf, div_le_div_iff_of_pos_right sqrt_two_pi_pos]
  exact setIntegral_mono_set gaussFun_integrable.integrableOn
    (Filter.Eventually.of_forall fun t => (Real.exp_pos _).le)
    ((Set.Iic_subset_Iic.2 hab).eventuallyLE)

lemma normCdf_zero : normCdf 0 = 1 / 2 := by
  have heven : ∀ t : ℝ, Real.exp (-(1 / 2) * (-t) ^ 2) = Real.exp (-(1 / 2) * t ^ 2) := by
    intro t
    rw [neg_sq]
  have h1 : (∫ t in Set.Iic (0 : ℝ), Real.exp (-(1 / 2) * t ^ 2)) =
      ∫ t in Set.Ioi (0 : ℝ), Real.exp (-(1 / 2) * t ^ 2) := by
    have h := integral_comp_neg_Iic (0 : ℝ) (fun t => Real.exp (-(1 / 2) * t ^ 2))
    simp only [neg_sq, neg_zero] at h
    exact h
  have hsplit : (∫ t in Set.Iic (0 : ℝ), Real.exp (-(1 / 2) * t ^ 2)) +
      (∫ t in Set.Ioi (0 : ℝ), Real.exp (-(1 / 2) * t ^ 2)) =
      ∫ t : ℝ, Real.exp (-(1 / 2) * t ^ 2) := by
    rw [← Set.compl_Iic]
    exact integral_add_compl measurableSet_Iic gaussFun_integrable
  have h2 : (∫ t in Set.Iic (0 : ℝ), Real.exp (-(1 / 2) * t ^ 2)) =
      Real.sqrt (2 * Real.pi) / 2 := by
    rw [← h1] at hsplit
    rw [gaussFun_total] at hsplit
    linarith
  rw [normCdf, h2]
  rw [div_right_comm, div_self (ne_of_gt sqrt_two_pi_pos)]

/-! ### Dict lemmas -/

lemma dictGet_insert_self {α : Type} (d : Dict α) (k : String) (v : α) :
    dictGet (dictInsert d k v) k = some v := by
  induction d with
  | nil => simp [dictInsert, dictGet]
  | cons hd tl ih =>
    obtain ⟨k₁, v₁⟩ := hd
    by_cases h : k₁ = k
    · simp [dictInsert, h, dictGet]
    · simp [dictInsert, h, dictGet, ih]

lemma dictGet_insert_ne {α : Type} (d : Dict α) (k k₂ : String) (v : α)
    (h : k ≠ k₂) : dictGet (dictInsert d k v) k₂ = dictGet d k₂ := by
  induction d with
  | nil => simp [dictInsert, dictGet, h]
  | cons hd tl ih =>
    obtain ⟨k₁, v₁⟩ := hd
    by_cases h₁ : k₁ = k
    · subst h₁
      simp [dictInsert, dictGet, h]
    · simp only [dictInsert, h₁, if_false, dictGet]
      by_cases h₂ : k₁ = k₂
      · simp [h₂]
      · simp [h₂, ih]

lemma mem_dictKeys_iff {α : Type} (d : Dict α) (k : String) :
    k ∈ dictKeys d ↔ (dictGet d k).isSome := by
  induction d with
  | nil => simp [dictKeys, dictGet]
  | cons hd tl ih =>
    obtain ⟨k₁, v₁⟩ := hd
    by_cases h : k₁ = k
    · simp [dictKeys, dictGet, h]
    · simp only [dictKeys, List.map_cons, List.mem_cons, dictGet, h, if_false]
      constructor
      · rintro (h₁ | h₁)
        · exact absurd h₁.symm h
        · exact (ih.1 h₁)
      · intro h₁
        exact Or.inr (ih.2 h₁)

lemma dictKeys_cons {α : Type} (k : String) (v : α) (d : Dict α) :
    dictKeys ((k, v) :: d) = k :: dictKeys d := rfl

lemma dictKeys_insert_mem {α : Type} (d : Dict α) (k : String) (v : α)
    (h : k ∈ dictKeys d) : dictKeys (dictInsert d k v) = dictKeys d := by
  induction d with
  | nil => simp [dictKeys] at h
  | cons hd tl ih =>
    obtain ⟨k₁, v₁⟩ := hd
    by_cases h₁ : k₁ = k
    · rw [show dictInsert ((k₁, v₁) :: tl) k v = (k, v) :: tl from by
        simp [dictInsert, h₁]]
      rw [dictKeys_cons, dictKeys_cons, h₁]
    · have h₂ : k ∈ dictKeys tl := by
        rw [dictKeys_cons] at h
        rcases List.mem_cons.1 h with h₃ | h₃
        · exact absurd h₃.symm h₁
        · exact h₃
      rw [show dictInsert ((k₁, v₁) :: tl) k v = (k₁, v₁) :: dictInsert tl k v from by
        simp [dictInsert, h₁]]
      rw [dictKeys_cons, dictKeys_cons, ih h₂]

lemma dictKeys_insert_not_mem {α : Type} (d : Dict α) (k : String) (v : α)
    (h : k ∉ dictKeys d) : dictKeys (dictInsert d k v) = dictKeys d ++ [k] := by
  induction d with
  | nil => simp [dictInsert, dictKeys]
  | cons hd tl ih =>
    obtain ⟨k₁, v₁⟩ := hd
    rw [dictKeys_cons] at h
    have h₁ : k₁ ≠ k := fun h₂ => h (h₂ ▸ List.mem_cons_self _ _)
    have h₂ : k ∉ dictKeys tl := fun h₃ => h (List.mem_cons_of_mem _ h₃)
    rw [show dictInsert ((k₁, v₁) :: tl) k v = (k₁, v₁) :: dictInsert tl k v from by
      simp [dictInsert, h₁]]
    rw [dictKeys_cons, dictKeys_cons, ih h₂]
    rfl

lemma dictKeys_insert_nodup {α : Type} (d : Dict α) (k : String) (v : α)
    (h : (dictKeys d).Nodup) : (dictKeys (dictInsert d k v)).Nodup := by
  by_cases h₁ : k ∈ dictKeys d
  · rw [dictKeys_insert_mem d k v h₁]
    exact h
  · rw [dictKeys_insert_not_mem d k v h₁]
    simp [List.nodup_append, h, h₁]

lemma mem_dictKeys_insert {α : Type} (d : Dict α) (k k₂ : String) (v : α) :
    k₂ ∈ dictKeys (dictInsert d k v) ↔ k₂ ∈ dictKeys d ∨ k₂ = k := by
  by_cases h₁ : k ∈ dictKeys d
  · rw [dictKeys_insert_mem d k v h₁]
    constructor
    · exact Or.inl
    · rintro (h₂ | h₂)
      · exact h₂
      · exact h₂ ▸ h₁
  · rw [dictKeys_insert_not_mem d k v h₁]
    simp

/-! ### Lemmas about the reduction loop -/

lemma reduceProbs_cons (r e : ℝ) (es : List ℝ) :
    reduceProbs r (e :: es) = (r - e) :: reduceProbs e es := by
  simp [reduceProbs, sub_sub_cancel]

lemma reduceProbs_length (r : ℝ) (es : List ℝ) :
    (reduceProbs r es).length = es.length := by
  induction es generalizing r with
  | nil => simp [reduceProbs]
  | cons e es ih =>
    rw [reduceProbs_cons]
    simp [ih]

lemma reduceProbs_get?_zero (r : ℝ) (es : List ℝ) :
    (reduceProbs r es).get? 0 = (es.get? 0).map (fun e => r - e) := by
  cases es with
  | nil => simp [reduceProbs]
  | cons e es => simp [reduceProbs_cons]

lemma reduceProbs_get?_succ (r : ℝ) (es : List ℝ) (i : Nat) (a b : ℝ)
    (ha : es.get? i = some a) (hb : es.get? (i + 1) = some b) :
    (reduceProbs r es).get? (i + 1) = some (a - b) := by
  induction es generalizing r i with
  | nil => simp at ha
  | cons e es ih =>
    rw [reduceProbs_cons]
    cases i with
    | zero =>
      simp only [List.get?_cons_zero, Option.some.injEq] at ha
      simp only [List.get?_cons_succ] at hb
      rw [List.get?_cons_succ, reduceProbs_get?_zero, hb]
      simp [ha]
    | succ j =>
      simp only [List.get?_cons_succ] at ha hb
      rw [List.get?_cons_succ]
      exact ih e j ha hb

lemma reduceProbs_sum (r : ℝ) (es : List ℝ) :
    (reduceProbs r es).sum = r - es.getLastD r := by
  induction es generalizing r with
  | nil => simp [reduceProbs]
  | cons e es ih =>
    rw [reduceProbs_cons, List.sum_cons, ih e, List.getLastD_cons]
    ring

lemma reduceProbs_nonneg (r : ℝ) (es : List ℝ)
    (hhead : ∀ a, es.head? = some a → a ≤ r)
    (hchain : es.Chain' (fun a b => b ≤ a))
    (hnn : ∀ e ∈ es, 0 ≤ e) :
    ∀ p ∈ reduceProbs r es, 0 ≤ p := by
  induction es generalizing r with
  | nil => simp [reduceProbs]
  | cons e es ih =>
    rw [reduceProbs_cons]
    intro p hp
    rcases List.mem_cons.1 hp with h | h
    · have h₁ : e ≤ r := hhead e rfl
      rw [h]
      linarith
    · refine ih e ?_ hchain.tail (fun x hx => hnn x (List.mem_cons_of_mem _ hx)) p h
      intro a ha
      cases es with
      | nil => simp at ha
      | cons b es₂ =>
        simp only [List.head?_cons, Option.some.injEq] at ha
        subst ha
        exact (List.chain'_cons.1 hchain).1

/-! ### Lemmas about building the exceedance list -/

lemma esOf_length (fam : Dict CurveParams) (v : ℝ) :
    (esOf fam v).length = fam.length := by
  simp [esOf]

lemma buildCdf_ok_length_le (fam : Dict CurveParams) (t : String) (v : ℝ)
    (cdf : List ℝ) (h : buildCdf fam t v = .ok cdf) : cdf.length ≤ fam.length := by
  induction fam generalizing cdf with
  | nil =>
    simp only [buildCdf, Except.ok.injEq] at h
    simp [← h]
  | cons hd rest ih =>
    obtain ⟨s, pi, pm, pb⟩ := hd
    cases pi with
    | none => simp [buildCdf] at h
    | some imt =>
      by_cases him : imt = t
      · subst him
        cases pm with
        | none => simp [buildCdf] at h
        | some md =>
          cases pb with
          | none => simp [buildCdf] at h
          | some bt =>
            cases hrec : buildCdf rest imt v with
            | error e => simp [buildCdf, hrec] at h
            | ok cdf₂ =>
              simp only [buildCdf, hrec, if_true, eq_self_iff_true, Except.ok.injEq] at h
              rw [← h]
              simpa using ih cdf₂ hrec
      · simp only [buildCdf, him, if_false] at h
        exact le_trans (ih cdf h) (Nat.le_succ _)

lemma buildCdf_allMatched (fam : Dict CurveParams) (t : String) (v : ℝ)
    (h : allMatched fam t) : buildCdf fam t v = .ok (esOf fam v) := by
  induction fam with
  | nil => simp [buildCdf, esOf]
  | cons hd rest ih =>
    obtain ⟨s, pi, pm, pb⟩ := hd
    obtain ⟨h₁, h₂, h₃⟩ := h _ (List.mem_cons_self _ _)
    have h₁' : pi = some t := h₁
    subst h₁'
    cases pm with
    | none => simp at h₂
    | some md =>
      cases pb with
      | none => simp at h₃
      | some bt =>
        have hrec := ih (fun p hp => h p (List.mem_cons_of_mem _ hp))
        simp [buildCdf, esOf, hrec]

lemma buildCdf_ok_full (fam : Dict CurveParams) (t : String) (v : ℝ)
    (cdf : List ℝ) (h : buildCdf fam t v = .ok cdf)
    (hlen : cdf.length = fam.length) : allMatched fam t ∧ cdf = esOf fam v := by
  induction fam generalizing cdf with
  | nil =>
    simp only [buildCdf, Except.ok.injEq] at h
    exact ⟨fun p hp => absurd hp (List.not_mem_nil p), by simp [esOf, ← h]⟩
  | cons hd rest ih =>
    obtain ⟨s, pi, pm, pb⟩ := hd
    cases pi with
    | none => simp [buildCdf] at h
    | some imt =>
      by_cases him : imt = t
      · subst him
        cases pm with
        | none => simp [buildCdf] at h
        | some md =>
          cases pb with
          | none => simp [buildCdf] at h
          | some bt =>
            cases hrec : buildCdf rest imt v with
            | error e => simp [buildCdf, hrec] at h
            | ok cdf₂ =>
              simp only [buildCdf, hrec, if_true, eq_self_iff_true, Except.ok.injEq] at h
              rw [← h] at hlen
              simp only [List.length_cons, Nat.add_right_cancel_iff] at hlen
              obtain ⟨hm, heq⟩ := ih cdf₂ hrec hlen
              constructor
              · intro p hp
                rcases List.mem_cons.1 hp with h₄ | h₄
                · subst h₄
                  exact ⟨rfl, rfl, rfl⟩
                · exact hm p h₄
              · rw [← h, heq]
                simp [esOf]
      · simp only [buildCdf, him, if_false] at h
        have h₅ := buildCdf_ok_length_le rest t v cdf h
        rw [hlen] at h₅
        simp at h₅

lemma plotRows_ok (fam : Dict CurveParams) (samples : List ℝ)
    (h : ∀ p ∈ fam, p.2.median.isSome ∧ p.2.beta.isSome) :
    ∃ rows, plotRows fam samples = .ok rows := by
  induction fam with
  | nil => exact ⟨[], rfl⟩
  | cons hd rest ih =>
    obtain ⟨s, pi, pm, pb⟩ := hd
    obtain ⟨h₂, h₃⟩ := h _ (List.mem_cons_self _ _)
    cases pm with
    | none => simp at h₂
    | some md =>
      cases pb with
      | none => simp at h₃
      | some bt =>
        obtain ⟨rows, hrows⟩ := ih (fun p hp => h p (List.mem_cons_of_mem _ hp))
        exact ⟨(samples.map (fun x => (x, s, calculate_state_probability x md bt))) ++ rows,
          by simp [plotRows, hrows]⟩

/-! ### Lemmas about the evaluation call -/

lemma ascertain_eval_eq (m : FragilityModel) (c t : String) (v : ℝ)
    (fam : Dict CurveParams)
    (hfam : dictGet m.fragility_curves (stripDigits c) = some fam)
    (hmatch : allMatched fam t) :
    ascertain_damage_probabilities m c t v false = .ok (reduceProbs 1 (esOf fam v)) := by
  simp only [ascertain_damage_probabilities, hfam]
  rw [buildCdf_allMatched fam t v hmatch]
  simp [esOf_length]

lemma ascertain_eval_eq_plot (m : FragilityModel) (c t : String) (v : ℝ)
    (fam : Dict CurveParams)
    (hfam : dictGet m.fragility_curves (stripDigits c) = some fam)
    (hmatch : allMatched fam t) (hne : fam ≠ []) :
    ascertain_damage_probabilities m c t v true = .ok (reduceProbs 1 (esOf fam v)) := by
  simp only [ascertain_damage_probabilities, hfam]
  rw [buildCdf_allMatched fam t v hmatch]
  obtain ⟨rows, hrows⟩ := plotRows_ok fam (linspace 0.001 (v * 2) 100)
    (fun p hp => (hmatch p hp).2)
  have hempty : (esOf fam v).isEmpty = false := by
    cases fam with
    | nil => exact absurd rfl hne
    | cons hd rest => simp [esOf]
  simp [esOf_length, plotStep, hrows, hempty]

lemma ascertain_ok_inv (m : FragilityModel) (c t : String) (v : ℝ) (b : Bool)
    (probs : List ℝ)
    (h : ascertain_damage_probabilities m c t v b = .ok probs) :
    ∃ fam, dictGet m.fragility_curves (stripDigits c) = some fam ∧
      allMatched fam t ∧ probs = reduceProbs 1 (esOf fam v) := by
  simp only [ascertain_damage_probabilities] at h
  cases hfam : dictGet m.fragility_curves (stripDigits c) with
  | none =>
    rw [hfam] at h
    exact absurd h (by simp)
  | some fam =>
    simp only [hfam] at h
    refine ⟨fam, rfl, ?_⟩
    cases hb : buildCdf fam t v with
    | error e =>
      simp only [hb] at h
      simp at h
    | ok cdf =>
      simp only [hb] at h
      by_cases hlen : cdf.length = fam.length
      · obtain ⟨hm, heq⟩ := buildCdf_ok_full fam t v cdf hb hlen
        refine ⟨hm, ?_⟩
        rw [if_pos hlen] at h
        rw [← heq]
        cases b with
        | false => simpa using h.symm
        | true =>
          cases hp : plotStep fam cdf v with
          | error e =>
            rw [if_pos rfl, hp] at h
            simp at h
          | ok u =>
            rw [if_pos rfl, hp] at h
            simpa using h.symm
      · exfalso
        rw [if_neg hlen] at h
        cases b with
        | false => simp at h
        | true =>
          cases hp : plotStep fam cdf v with
          | error e =>
            rw [if_pos rfl, hp] at h
            simp at h
          | ok u =>
            rw [if_pos rfl, hp] at h
            simp at h

/-! ### Last-occurrence bookkeeping for duplicate state labels -/

/-- The index of the last occurrence of `s` in `l`, if any. -/
def lastOcc (l : List String) (s : String) : Option Nat :=
  match l with
  | [] => none
  | a :: rest =>
    match lastOcc rest s with
    | some j => some (j + 1)
    | none => if a = s then some 0 else none

lemma lastOcc_eq_none_iff (l : List String) (s : String) :
    lastOcc l s = none ↔ s ∉ l := by
  induction l with
  | nil => simp [lastOcc]
  | cons a rest ih =>
    simp only [lastOcc]
    cases hlo : lastOcc rest s with
    | some j =>
      have hs : s ∈ rest := by
        by_contra hmem
        rw [ih.2 hmem] at hlo
        exact Option.noConfusion hlo
      simp [List.mem_cons, hs]
    | none =>
      have hs : s ∉ rest := ih.1 hlo
      by_cases ha : a = s
      · simp [ha, List.mem_cons]
      · have ha₂ : s ≠ a := fun h => ha h.symm
        simp [ha, List.mem_cons, hs, ha₂]

lemma lastOcc_spec (l : List String) (s : String) (j : Nat)
    (h : lastOcc l s = some j) :
    l.get? j = some s ∧ ∀ j₂, j < j₂ → l.get? j₂ ≠ some s := by
  induction l generalizing j with
  | nil => simp [lastOcc] at h
  | cons a rest ih =>
    simp only [lastOcc] at h
    cases hlo : lastOcc rest s with
    | some j₁ =>
      rw [hlo] at h
      simp only [Option.some.injEq] at h
      subst h
      obtain ⟨hg, hmax⟩ := ih j₁ hlo
      refine ⟨by simpa using hg, ?_⟩
      intro j₂ hj₂
      cases j₂ with
      | zero => omega
      | succ j₃ =>
        rw [List.get?_cons_succ]
        exact hmax j₃ (by omega)
    | none =>
      rw [hlo] at h
      by_cases ha : a = s
      · rw [if_pos ha] at h
        simp only [Option.some.injEq] at h
        subst h
        refine ⟨by simp [ha], ?_⟩
        intro j₂ hj₂
        cases j₂ with
        | zero => omega
        | succ j₃ =>
          rw [List.get?_cons_succ]
          intro hc
          exact (lastOcc_eq_none_iff rest s).1 hlo (List.get?_mem hc)
      · rw [if_neg ha] at h
        exact absurd h (by simp)

lemma lastOcc_of_mem (l : List String) (s : String) (h : s ∈ l) :
    ∃ j, lastOcc l s = some j := by
  cases hlo : lastOcc l s with
  | none => exact absurd h ((lastOcc_eq_none_iff l s).1 hlo)
  | some j => exact ⟨j, rfl⟩

/-! ### Lemmas about the registration loop -/

lemma setCurvesLoop_success (states : List String) (medians betas : List ℝ)
    (imt : String) (d : Dict CurveParams) (i : Nat)
    (h₁ : i + states.length ≤ medians.length)
    (h₂ : i + states.length ≤ betas.length) :
    (setCurvesLoop d imt states medians betas i).2 = true := by
  induction states generalizing d i with
  | nil => rfl
  | cons a rest ih =>
    simp only [List.length_cons] at h₁ h₂
    obtain ⟨md, hmd⟩ : ∃ md, medians.get? i = some md :=
      ⟨_, List.get?_eq_get (by omega)⟩
    obtain ⟨bt, hbt⟩ : ∃ bt, betas.get? i = some bt :=
      ⟨_, List.get?_eq_get (by omega)⟩
    simp only [setCurvesLoop, hmd, hbt]
    exact ih _ (i + 1) (by omega) (by omega)

lemma setCurvesLoop_lookup (states : List String) (medians betas : List ℝ)
    (imt : String) (d : Dict CurveParams) (i : Nat) (s : String)
    (h₁ : i + states.length ≤ medians.length)
    (h₂ : i + states.length ≤ betas.length) :
    dictGet (setCurvesLoop d imt states medians betas i).1 s =
      match lastOcc states s with
      | some j => some ⟨some imt, medians.get? (i + j), betas.get? (i + j)⟩
      | none => dictGet d s := by
  induction states generalizing d i with
  | nil => simp [setCurvesLoop, lastOcc]
  | cons a rest ih =>
    simp only [List.length_cons] at h₁ h₂
    obtain ⟨md, hmd⟩ : ∃ md, medians.get? i = some md :=
      ⟨_, List.get?_eq_get (by omega)⟩
    obtain ⟨bt, hbt⟩ : ∃ bt, betas.get? i = some bt :=
      ⟨_, List.get?_eq_get (by omega)⟩
    simp only [setCurvesLoop, hmd, hbt]
    rw [ih _ (i + 1) (by omega) (by omega)]
    simp only [lastOcc]
    cases hlo : lastOcc rest s with
    | some j =>
      have hidx : i + 1 + j = i + (j + 1) := by omega
      simp only [hidx]
    | none =>
      by_cases ha : a = s
      · subst ha
        simp only [dictGet_insert_self, eq_self_iff_true, if_true]
        refine congrArg some ?_
        refine congrArg₂ (fun x y => CurveParams.mk (some imt) x y) ?_ ?_
        · rw [Nat.add_zero, hmd]
        · rw [Nat.add_zero, hbt]
      · have hne : ∀ (d₂ : Dict CurveParams) (v : CurveParams),
            dictGet (dictInsert d₂ a v) s = dictGet d₂ s :=
          fun d₂ v => dictGet_insert_ne d₂ a s v ha
        simp [ha, hne]

lemma setCurvesLoop_keys_mem (states : List String) (medians betas : List ℝ)
    (imt : String) (d : Dict CurveParams) (i : Nat) (s : String)
    (h₁ : i + states.length ≤ medians.length)
    (h₂ : i + states.length ≤ betas.length) :
    s ∈ dictKeys (setCurvesLoop d imt states medians betas i).1 ↔
      s ∈ dictKeys d ∨ s ∈ states := by
  induction states generalizing d i with
  | nil => simp [setCurvesLoop]
  | cons a rest ih =>
    simp only [List.length_cons] at h₁ h₂
    obtain ⟨md, hmd⟩ : ∃ md, medians.get? i = some md :=
      ⟨_, List.get?_eq_get (by omega)⟩
    obtain ⟨bt, hbt⟩ : ∃ bt, betas.get? i = some bt :=
      ⟨_, List.get?_eq_get (by omega)⟩
    simp only [setCurvesLoop, hmd, hbt]
    rw [ih _ (i + 1) (by omega) (by omega)]
    simp only [mem_dictKeys_insert, List.mem_cons]
    constructor
    · rintro (((((h₃ | h₃) | h₃) | h₃) | h₃) | h₃) <;> tauto
    · rintro (h₃ | h₃ | h₃) <;> tauto

lemma setCurvesLoop_keys_nodup (states : List String) (medians betas : List ℝ)
    (imt : String) (d : Dict CurveParams) (i : Nat)
    (h : (dictKeys d).Nodup) :
    ((dictKeys (setCurvesLoop d imt states medians betas i).1)).Nodup := by
  induction states generalizing d i with
  | nil => exact h
  | cons a rest ih =>
    simp only [setCurvesLoop]
    cases medians.get? i with
    | none => exact dictKeys_insert_nodup _ _ _ (dictKeys_insert_nodup _ _ _ h)
    | some md =>
      cases betas.get? i with
      | none =>
        exact dictKeys_insert_nodup _ _ _
          (dictKeys_insert_nodup _ _ _ (dictKeys_insert_nodup _ _ _ h))
      | some bt =>
        exact ih _ (i + 1) (dictKeys_insert_nodup _ _ _ (dictKeys_insert_nodup _ _ _
          (dictKeys_insert_nodup _ _ _ (dictKeys_insert_nodup _ _ _ h))))

/-! ### Concrete models used by witnesses and counterexamples -/

/-- A model with one registered family for "Pump" with a single fully
parameterized state using intensity-measure type "PGA". -/
def modelOnePGA : FragilityModel :=
  ⟨"w", none, [("Pump", [("minor", ⟨some "PGA", some 1, some 1⟩)])]⟩

/-- A model whose single "Pump" state is registered under the
intensity-measure type "PGB". -/
def modelOnePGB : FragilityModel :=
  ⟨"w", none, [("Pump", [("minor", ⟨some "PGB", some 1, some 1⟩)])]⟩

/-- A model with an empty family registered for "Pump" (reachable by calling
`set_fragility_curves` with empty lists). -/
def modelEmptyFam : FragilityModel := ⟨"w", none, [("Pump", [])]⟩

/-- Count of an element is unchanged by filtering with a predicate it
satisfies. -/
lemma count_filter_of_pos (p : Char → Bool) (l : List Char) (c : Char)
    (hc : p c = true) : (l.filter p).count c = l.count c := by
  induction l with
  | nil => rfl
  | cons a l ih =>
    cases ha : p a with
    | false =>
      rw [List.filter_cons_of_neg (by simp [ha])]
      have hne : ¬(c = a) := fun h => by
        rw [h, ha] at hc
        exact Bool.noConfusion hc
      rw [ih, List.count_cons]
      have hne₂ : ¬(a = c) := fun h => hne h.symm
      simp [hne, hne₂]
    | true =>
      rw [List.filter_cons_of_pos (by simp [ha])]
      rw [List.count_cons, List.count_cons, ih]

/-- The default-valued last element of a list is the default or a member. -/
lemma getLastD_eq_or_mem (l : List ℝ) (d : ℝ) :
    l.getLastD d = d ∨ l.getLastD d ∈ l := by
  induction l generalizing d with
  | nil => exact Or.inl rfl
  | cons e es ih =>
    rw [List.getLastD_cons]
    rcases ih e with h | h
    · right
      rw [h]
      exact List.mem_cons_self _ _
    · exact Or.inr (List.mem_cons_of_mem _ h)

/-! ### The claims -/

/-- C6: the evaluation lookup key is obtained by removing exactly the digit
characters of the component string while preserving all non-digit characters
in their original order: the key is a subsequence of the component, every
character of the key is a non-digit, every non-digit character keeps its
multiplicity, and the stated examples hold. -/
theorem stripDigits_removes_exactly_digits :
    stripDigits "Pump4" = "Pump" ∧ stripDigits "Pump" = "Pump" ∧
    stripDigits "Pump12A" = "PumpA" ∧
    ∀ s : String,
      (stripDigits s).data.Sublist s.data ∧
      (∀ c ∈ (stripDigits s).data, c.isDigit = false) ∧
      (∀ c : Char, c.isDigit = false →
        (stripDigits s).data.count c = s.data.count c) := by
  refine ⟨rfl, rfl, rfl, fun s => ⟨?_, ?_, ?_⟩⟩
  · exact List.filter_sublist _
  · intro c hc
    have h := List.of_mem_filter hc
    simpa using h
  · intro c hc
    exact count_filter_of_pos _ _ _ (by simp [hc])

/-- C6 witness: the multiplicity clause applied at a concrete non-digit
character. -/
theorem stripDigits_removes_exactly_digits_witness :
    ('P'.isDigit = false) ∧
    (stripDigits "Pump4").data.count 'P' = "Pump4".data.count 'P' :=
  ⟨rfl, (stripDigits_removes_exactly_digits.2.2.2 "Pump4").2.2 'P' rfl⟩

/-- C2: `calculate_state_probability` computes Φ(ln(intensityValue/median) /
dispersion) with Φ the standard normal CDF, as a pure function of its
arguments, and at the median the exceedance probability is exactly one
half. -/
theorem calculate_state_probability_spec :
    (∀ x median beta : ℝ, calculate_state_probability x median beta =
      normCdf (Real.log (x / median) / beta)) ∧
    ∀ median beta : ℝ, 0 < median → 0 < beta →
      calculate_state_probability median median beta = 1 / 2 := by
  refine ⟨fun x median beta => rfl, fun median beta hm hb => ?_⟩
  rw [calculate_state_probability, div_self (ne_of_gt hm), Real.log_one,
    zero_div, normCdf_zero]

/-- C2 witness: the half-probability clause at median 2, dispersion 1. -/
theorem calculate_state_probability_spec_witness :
    calculate_state_probability 2 2 1 = 1 / 2 :=
  calculate_state_probability_spec.2 2 1 two_pos one_pos

/-- C8: for fixed positive median and dispersion, the exceedance probability
lies in [0,1] for every positive intensity and is monotone non-decreasing in
the intensity. -/
theorem calculate_state_probability_range_mono (median beta : ℝ)
    (hm : 0 < median) (hb : 0 < beta) :
    (∀ x : ℝ, 0 < x → 0 ≤ calculate_state_probability x median beta ∧
      calculate_state_probability x median beta ≤ 1) ∧
    ∀ x₁ x₂ : ℝ, 0 < x₁ → x₁ ≤ x₂ →
      calculate_state_probability x₁ median beta ≤
        calculate_state_probability x₂ median beta := by
  constructor
  · exact fun x _ => ⟨normCdf_nonneg _, normCdf_le_one _⟩
  · intro x₁ x₂ hx₁ hx
    apply normCdf_mono
    have h₁ : 0 < x₁ / median := div_pos hx₁ hm
    have h₂ : x₁ / median ≤ x₂ / median := by gcongr
    have h₃ : Real.log (x₁ / median) ≤ Real.log (x₂ / median) :=
      (Real.log_le_log_iff h₁ (lt_of_lt_of_le h₁ h₂)).2 h₂
    exact (div_le_div_iff_of_pos_right hb).2 h₃

/-- C8 witness: range clause at intensity 1, median 2, dispersion 1. -/
theorem calculate_state_probability_range_mono_witness :
    0 ≤ calculate_state_probability 1 2 1 ∧
      calculate_state_probability 1 2 1 ≤ 1 :=
  (calculate_state_probability_range_mono 2 1 two_pos one_pos).1 1 one_pos

/-- C7: when the derived component key has no registered family the call
returns no result (Python `None`), and the stored model state is unchanged.
-/
theorem ascertain_unregistered_noResult (m : FragilityModel) (c t : String)
    (v : ℝ) (b : Bool)
    (habs : dictGet m.fragility_curves (stripDigits c) = none) :
    ascertain_damage_probabilities m c t v b = .noResult ∧
    (ascertainS m c t v b).2 = m := by
  constructor
  · simp only [ascertain_damage_probabilities, habs]
  · rfl

/-- C7 witness: a fresh model has no family for "Pipe". -/
theorem ascertain_unregistered_noResult_witness :
    ascertain_damage_probabilities (FragilityModel.init "m") "Pipe1" "PGA" 1 true =
      .noResult :=
  (ascertain_unregistered_noResult (FragilityModel.init "m") "Pipe1" "PGA" 1 true rfl).1

/-- C1: when the derived component key is registered and every state of the
family carries the requested intensity-measure type (with full parameters),
the evaluation returns exactly the running-remainder reduction of the
per-state exceedance values e₁..e_k in family order: v₁ = 1 - e₁ and
v_{i+1} = e_i - e_{i+1}; moreover any returned vector equals that
reduction. -/
theorem ascertain_reduction_formula (m : FragilityModel) (c t : String)
    (v : ℝ) (fam : Dict CurveParams)
    (hfam : dictGet m.fragility_curves (stripDigits c) = some fam)
    (hmatch : allMatched fam t) :
    ascertain_damage_probabilities m c t v false =
      .ok (reduceProbs 1 (esOf fam v)) ∧
    ∀ (b : Bool) (probs : List ℝ),
      ascertain_damage_probabilities m c t v b = .ok probs →
      probs.length = fam.length ∧
      (∀ e₁, (esOf fam v).get? 0 = some e₁ → probs.get? 0 = some (1 - e₁)) ∧
      ∀ (i : Nat) (e₁ e₂ : ℝ), (esOf fam v).get? i = some e₁ →
        (esOf fam v).get? (i + 1) = some e₂ →
        probs.get? (i + 1) = some (e₁ - e₂) := by
  refine ⟨ascertain_eval_eq m c t v fam hfam hmatch, ?_⟩
  intro b probs h
  obtain ⟨fam₂, hfam₂, _, heq⟩ := ascertain_ok_inv m c t v b probs h
  rw [hfam] at hfam₂
  have hfe : fam = fam₂ := Option.some.inj hfam₂
  subst hfe
  subst heq
  refine ⟨by rw [reduceProbs_length, esOf_length], ?_, ?_⟩
  · intro e₁ he₁
    rw [reduceProbs_get?_zero, he₁]
    rfl
  · intro i e₁ e₂ h₁ h₂
    exact reduceProbs_get?_succ 1 _ i e₁ e₂ h₁ h₂

/-- C1 witness: a one-state matching family. -/
theorem ascertain_reduction_formula_witness :
    ascertain_damage_probabilities modelOnePGA "Pump7" "PGA" 1 false =
      .ok (reduceProbs 1 (esOf [("minor", ⟨some "PGA", some 1, some 1⟩)] 1)) :=
  (ascertain_reduction_formula modelOnePGA "Pump7" "PGA" 1
    [("minor", ⟨some "PGA", some 1, some 1⟩)] rfl (by
      intro p hp
      rw [List.mem_singleton] at hp
      subst hp
      exact ⟨rfl, rfl, rfl⟩)).1

/-- C4: if some state of the matched family carries a registered
intensity-measure type different from the requested one (or none at all),
the exceedance-to-state-probability reduction is skipped and the call never
returns a vector. -/
theorem ascertain_mismatch_no_vector (m : FragilityModel) (c t : String)
    (v : ℝ) (fam : Dict CurveParams)
    (hfam : dictGet m.fragility_curves (stripDigits c) = some fam)
    (hmis : ∃ p ∈ fam, p.2.imt ≠ some t) :
    ∀ (b : Bool) (probs : List ℝ),
      ascertain_damage_probabilities m c t v b ≠ .ok probs := by
  intro b probs h
  obtain ⟨fam₂, hfam₂, hmatch, _⟩ := ascertain_ok_inv m c t v b probs h
  rw [hfam] at hfam₂
  have hfe : fam = fam₂ := Option.some.inj hfam₂
  subst hfe
  obtain ⟨p, hp, hne⟩ := hmis
  exact hne (hmatch p hp).1

/-- C4 witness: the single state is registered under "PGB" but "PGA" is
requested. -/
theorem ascertain_mismatch_no_vector_witness :
    ascertain_damage_probabilities modelOnePGB "Pump3" "PGA" 1 false ≠
      .ok [] :=
  ascertain_mismatch_no_vector modelOnePGB "Pump3" "PGA" 1
    [("minor", ⟨some "PGB", some 1, some 1⟩)] rfl
    ⟨("minor", ⟨some "PGB", some 1, some 1⟩), List.mem_singleton.2 rfl,
      by simp⟩ false []

/-- C3: every returned state-probability vector sums to at most one, and
when the family's exceedance values are non-increasing in family order
(the severity-ordering invariant) every entry is non-negative.  (Each
exceedance value automatically lies in [0,1] since it is a normal-CDF
value, so that part of the stated precondition is not needed.) -/
theorem ascertain_sum_le_one_nonneg (m : FragilityModel) (c t : String)
    (v : ℝ) (b : Bool) (probs : List ℝ) (fam : Dict CurveParams)
    (hfam : dictGet m.fragility_curves (stripDigits c) = some fam)
    (h : ascertain_damage_probabilities m c t v b = .ok probs) :
    probs.sum ≤ 1 ∧
    ((esOf fam v).Chain' (fun e₁ e₂ => e₂ ≤ e₁) → ∀ x ∈ probs, 0 ≤ x) := by
  obtain ⟨fam₂, hfam₂, _, heq⟩ := ascertain_ok_inv m c t v b probs h
  rw [hfam] at hfam₂
  have hfe : fam = fam₂ := Option.some.inj hfam₂
  subst hfe
  subst heq
  have hbound : ∀ x ∈ esOf fam v, 0 ≤ x ∧ x ≤ 1 := by
    intro x hx
    simp only [esOf, List.mem_map] at hx
    obtain ⟨p, _, hpx⟩ := hx
    rw [← hpx]
    exact ⟨normCdf_nonneg _, normCdf_le_one _⟩
  constructor
  · rw [reduceProbs_sum]
    rcases getLastD_eq_or_mem (esOf fam v) 1 with hl | hl
    · rw [hl]
      norm_num
    · have := (hbound _ hl).1
      linarith
  · intro hchain x hx
    refine reduceProbs_nonneg 1 (esOf fam v) ?_ hchain
      (fun e he => (hbound e he).1) x hx
    intro a ha
    exact (hbound a (List.mem_of_mem_head? ha)).2

/-- C3 witness: an evaluation over an empty family returns the empty vector,
whose sum is zero. -/
theorem ascertain_sum_le_one_nonneg_witness :
    ([] : List ℝ).sum ≤ 1 :=
  (ascertain_sum_le_one_nonneg modelEmptyFam "Pump1" "PGA" 1 false [] []
    rfl rfl).1

/-- C9 counterexample: with an empty registered family (reachable by
registering with empty lists), the call with plotting enabled raises a
`ValueError` at `max(state_cdf)` (line 119) while the call with plotting
disabled returns the empty vector — the plotting flag changes the outcome of
the call. -/
theorem ascertain_plotting_changes_outcome :
    ascertain_damage_probabilities modelEmptyFam "Pump1" "PGA" 1 true =
      .error "ValueError: max of empty sequence" ∧
    ascertain_damage_probabilities modelEmptyFam "Pump1" "PGA" 1 false =
      .ok [] ∧
    ascertain_damage_probabilities modelEmptyFam "Pump1" "PGA" 1 true ≠
      ascertain_damage_probabilities modelEmptyFam "Pump1" "PGA" 1 false := by
  refine ⟨rfl, rfl, fun h => ?_⟩
  have h₂ : EvalResult.error "ValueError: max of empty sequence" =
      EvalResult.ok ([] : List ℝ) := h
  exact EvalResult.noConfusion h₂

/-- C9 (amended): provided the matched family is non-empty, the plotting
flag has no effect on the returned vector — the plotting-enabled call
returns a vector exactly when the plotting-disabled call does, and then the
same one; and the evaluation call never mutates the stored model state.
(With an empty family, plotting=true raises while plotting=false returns
the empty vector.) -/
theorem ascertain_plotting_no_effect (m : FragilityModel) (c t : String)
    (v : ℝ) (fam : Dict CurveParams)
    (hfam : dictGet m.fragility_curves (stripDigits c) = some fam)
    (hne : fam ≠ []) :
    (∀ probs : List ℝ,
      ascertain_damage_probabilities m c t v true = .ok probs ↔
      ascertain_damage_probabilities m c t v false = .ok probs) ∧
    ∀ b : Bool, (ascertainS m c t v b).2 = m := by
  refine ⟨?_, fun b => rfl⟩
  intro probs
  constructor
  · intro h
    obtain ⟨fam₂, hfam₂, hmatch, heq⟩ := ascertain_ok_inv m c t v true probs h
    rw [hfam] at hfam₂
    have hfe : fam = fam₂ := Option.some.inj hfam₂
    subst hfe
    rw [heq]
    exact ascertain_eval_eq m c t v fam hfam hmatch
  · intro h
    obtain ⟨fam₂, hfam₂, hmatch, heq⟩ := ascertain_ok_inv m c t v false probs h
    rw [hfam] at hfam₂
    have hfe : fam = fam₂ := Option.some.inj hfam₂
    subst hfe
    rw [heq]
    exact ascertain_eval_eq_plot m c t v fam hfam hmatch hne

/-- C9 witness: frame property on a non-empty family. -/
theorem ascertain_plotting_no_effect_witness :
    (ascertainS modelOnePGA "Pump7" "PGA" 1 true).2 = modelOnePGA :=
  (ascertain_plotting_no_effect modelOnePGA "Pump7" "PGA" 1
    [("minor", ⟨some "PGA", some 1, some 1⟩)] rfl (by simp)).2 true

/-- C5 counterexample: a registration call with a too-short medians list
raises `IndexError` partway, yet the table has already been changed: the
partially built family (first state complete, second state holding only its
"imt" field) remains stored under the prefix, so a failed call neither fully
replaces the family nor leaves the table as it was. -/
theorem set_fragility_curves_not_atomic :
    (set_fragility_curves (FragilityModel.init "m") "Pump" "PGA"
      ["minor", "major"] [1] [1, 1]).2 = false ∧
    (set_fragility_curves (FragilityModel.init "m") "Pump" "PGA"
      ["minor", "major"] [1] [1, 1]).1.fragility_curves =
      [("Pump", [("minor", ⟨some "PGA", some 1, some 1⟩),
        ("major", ⟨some "PGA", none, none⟩)])] ∧
    (set_fragility_curves (FragilityModel.init "m") "Pump" "PGA"
      ["minor", "major"] [1] [1, 1]).1.fragility_curves ≠
      (FragilityModel.init "m").fragility_curves := by
  refine ⟨rfl, rfl, fun h => ?_⟩
  have h₂ : ([("Pump", [("minor", (⟨some "PGA", some 1, some 1⟩ : CurveParams)),
      ("major", ⟨some "PGA", none, none⟩)])] : Dict (Dict CurveParams)) =
      ([] : Dict (Dict CurveParams)) := h
  exact List.noConfusion h₂

/-- C5 (amended): a registration call whose state list is no longer than the
medians and betas lists completes successfully; the family stored under the
prefix is determined by the call arguments alone (so a completed call fully
replaces whatever was there before), and every other prefix is left
untouched.  A failed call (too-short medians or betas), however, leaves the
partially built family under the prefix instead of restoring the previous
table. -/
theorem set_fragility_curves_replacement (m m₂ : FragilityModel)
    (componPfx imt : String) (states : List String)
    (medians betas : List ℝ) :
    (states.length ≤ medians.length → states.length ≤ betas.length →
      (set_fragility_curves m componPfx imt states medians betas).2 = true) ∧
    dictGet (set_fragility_curves m componPfx imt states medians
        betas).1.fragility_curves componPfx =
      dictGet (set_fragility_curves m₂ componPfx imt states medians
        betas).1.fragility_curves componPfx ∧
    ∀ k, k ≠ componPfx →
      dictGet (set_fragility_curves m componPfx imt states medians
          betas).1.fragility_curves k =
        dictGet m.fragility_curves k := by
  refine ⟨?_, ?_, ?_⟩
  · intro h₁ h₂
    exact setCurvesLoop_success states medians betas imt [] 0
      (by omega) (by omega)
  · rw [show (set_fragility_curves m componPfx imt states medians
        betas).1.fragility_curves = dictInsert m.fragility_curves componPfx
        (setCurvesLoop [] imt states medians betas 0).1 from rfl]
    rw [show (set_fragility_curves m₂ componPfx imt states medians
        betas).1.fragility_curves = dictInsert m₂.fragility_curves componPfx
        (setCurvesLoop [] imt states medians betas 0).1 from rfl]
    rw [dictGet_insert_self, dictGet_insert_self]
  · intro k hk
    rw [show (set_fragility_curves m componPfx imt states medians
        betas).1.fragility_curves = dictInsert m.fragility_curves componPfx
        (setCurvesLoop [] imt states medians betas 0).1 from rfl]
    exact dictGet_insert_ne _ _ _ _ (fun h => hk h.symm)

/-- C5 witness: a registration with equal-length inputs succeeds. -/
theorem set_fragility_curves_replacement_witness :
    (set_fragility_curves (FragilityModel.init "m") "Tank" "PGA"
      ["minor"] [1] [1]).2 = true :=
  (set_fragility_curves_replacement (FragilityModel.init "m")
    (FragilityModel.init "n") "Tank" "PGA" ["minor"] [1] [1]).1
    (by simp) (by simp)

/-- C10: when `set_fragility_curves` is called (with sufficiently long
parameter lists) with a duplicate damage-state label, the stored family has
exactly one entry per distinct label (keyed by the label); each label's
entry carries the median and beta of the label's last occurrence in the
supplied order; and any subsequent evaluation of that prefix that returns a
vector yields one entry per distinct label, not one per supplied state. -/
theorem set_fragility_curves_duplicate_labels (m : FragilityModel)
    (componPfx imt : String) (states : List String)
    (medians betas : List ℝ)
    (h₁ : states.length ≤ medians.length)
    (h₂ : states.length ≤ betas.length) :
    ∃ fam, dictGet (set_fragility_curves m componPfx imt states medians
        betas).1.fragility_curves componPfx = some fam ∧
      fam.length = states.dedup.length ∧
      (∀ s ∈ states, ∃ j, states.get? j = some s ∧
        (∀ j₂, j < j₂ → states.get? j₂ ≠ some s) ∧
        dictGet fam s = some ⟨some imt, medians.get? j, betas.get? j⟩) ∧
      ∀ (c t : String) (v : ℝ) (b : Bool) (probs : List ℝ),
        stripDigits c = componPfx →
        ascertain_damage_probabilities
          (set_fragility_curves m componPfx imt states medians betas).1
          c t v b = .ok probs →
        probs.length = states.dedup.length := by
  have hkey : dictGet (set_fragility_curves m componPfx imt states medians
      betas).1.fragility_curves componPfx =
      some (setCurvesLoop [] imt states medians betas 0).1 := by
    rw [show (set_fragility_curves m componPfx imt states medians
        betas).1.fragility_curves = dictInsert m.fragility_curves componPfx
        (setCurvesLoop [] imt states medians betas 0).1 from rfl]
    exact dictGet_insert_self _ _ _
  set F := (setCurvesLoop [] imt states medians betas 0).1 with hF
  have hnodup : (dictKeys F).Nodup :=
    setCurvesLoop_keys_nodup states medians betas imt [] 0 (by simp [dictKeys])
  have hmem : ∀ s, s ∈ dictKeys F ↔ s ∈ states := by
    intro s
    have h := setCurvesLoop_keys_mem states medians betas imt [] 0 s
      (by omega) (by omega)
    simpa [dictKeys] using h
  have hlenF : F.length = states.dedup.length := by
    have e₁ : F.length = (dictKeys F).length := (List.length_map _ _).symm
    have e₂ : (dictKeys F).toFinset = states.toFinset := by
      ext s
      simp only [List.mem_toFinset]
      exact hmem s
    calc F.length = (dictKeys F).length := e₁
      _ = (dictKeys F).toFinset.card := (List.toFinset_card_of_nodup hnodup).symm
      _ = states.toFinset.card := by rw [e₂]
      _ = states.dedup.length := List.card_toFinset states
  refine ⟨F, hkey, hlenF, ?_, ?_⟩
  · intro s hs
    obtain ⟨j, hj⟩ := lastOcc_of_mem states s hs
    obtain ⟨hget, hmax⟩ := lastOcc_spec states s j hj
    refine ⟨j, hget, hmax, ?_⟩
    have h := setCurvesLoop_lookup states medians betas imt [] 0 s
      (by omega) (by omega)
    rw [hj] at h
    simpa using h
  · intro c t v b probs hc h
    obtain ⟨fam₂, hfam₂, _, heq⟩ := ascertain_ok_inv _ c t v b probs h
    rw [hc, hkey] at hfam₂
    have hfe : F = fam₂ := Option.some.inj hfam₂
    subst heq
    rw [reduceProbs_length, esOf_length, ← hfe, hlenF]

/-- C10 witness: two copies of "minor" collapse to a single family entry. -/
theorem set_fragility_curves_duplicate_labels_witness :
    ∃ fam, dictGet (set_fragility_curves (FragilityModel.init "m") "Pump"
        "PGA" ["minor", "minor"] [1, 2] [3, 4]).1.fragility_curves "Pump" =
        some fam ∧ fam.length = (["minor", "minor"].dedup).length := by
  obtain ⟨fam, hf, hl, _, _⟩ := set_fragility_curves_duplicate_labels
    (FragilityModel.init "m") "Pump" "PGA" ["minor", "minor"] [1, 2] [3, 4]
    (by simp) (by simp)
  exact ⟨fam, hf, hl⟩
